import Mathlib

/-!
Verification development for the photo pipeline in src/landmark_pipeline.py.

The pure string/arithmetic logic of the pipeline (keyword ranking, caption
derivation, explicit-order application, web resizing, watermark geometry,
best-effort thumbnail embedding, and the observable outcome of main) is
embedded shallowly below.  Python strings are modelled as Lean strings
(lists of characters, ASCII semantics for case operations); the external
imaging library (PIL) is modelled by the dimensions-and-mode record Img and,
where its behaviour is opaque (JPEG encoding, decoding), by an explicit
environment of functions.  Machine floats only occur in the Python source as
exact small-integer products and quotients, which are modelled with natural
division.
-/

namespace Landmark

/-- The set of whitespace characters stripped by Python str.strip (ASCII part). -/
def pyIsSpace (c : Char) : Bool :=
  c = ' ' || c = '\t' || c = '\n' || c = '\r' || c = '\x0b' || c = '\x0c'

/-- Python str.strip on a list of characters: drop whitespace from both ends. -/
def pyStrip (l : List Char) : List Char :=
  ((l.dropWhile pyIsSpace).reverse.dropWhile pyIsSpace).reverse

/-- Python str.strip on strings. -/
def pyStripS (s : String) : String :=
  ⟨pyStrip s.data⟩

/-- Is the character an underscore or a hyphen (the class of re.sub r"[_\x2d]+")? -/
def isDU (c : Char) : Bool :=
  c = '_' || c = '-'

/-- Replace each maximal run of underscores/hyphens by a single space.
The Boolean records whether the previous character belonged to a run. -/
def squashAux : List Char → Bool → List Char
  | [], _ => []
  | c :: cs, prevDU =>
    if isDU c then
      (if prevDU then [] else [' ']) ++ squashAux cs true
    else
      c :: squashAux cs false

/-- Python re.sub(r"[_\x2d]+", " ", s): runs of underscores/hyphens become one space. -/
def squashDU (l : List Char) : List Char :=
  squashAux l false

/-- Cased characters for Python str.title (ASCII model). -/
def isCased (c : Char) : Bool :=
  c.isAlpha

/-- Python str.title: a cased character is uppercased when the previous
character is not cased, lowercased otherwise. -/
def titleAux : List Char → Bool → List Char
  | [], _ => []
  | c :: cs, prevCased =>
    (if isCased c then (if prevCased then c.toLower else c.toUpper) else c)
      :: titleAux cs (isCased c)

/-- Python str.title on a list of characters. -/
def pyTitle (l : List Char) : List Char :=
  titleAux l false

/-- os.path.basename: the part of the path after the last slash. -/
def basenameChars (l : List Char) : List Char :=
  (l.reverse.takeWhile (fun c => c ≠ '/')).reverse

/-- os.path.basename on strings. -/
def basename (s : String) : String :=
  ⟨basenameChars s.data⟩

/-- The root part of os.path.splitext for a slash-free name: split at the last
dot provided some earlier character is not a dot, else return the name whole. -/
def splitextRoot (l : List Char) : List Char :=
  match l.reverse.dropWhile (fun c => c ≠ '.') with
  | [] => l
  | _ :: remainder => if remainder.any (fun c => c ≠ '.') then remainder.reverse else l

/-- Python substring test: does pat occur contiguously inside the list? -/
def isSubListOf (pat : List Char) : List Char → Bool
  | [] => pat.isEmpty
  | c :: rest => pat.isPrefixOf (c :: rest) || isSubListOf pat rest

/-- Python "k in n" where n = name.lower(): keyword containment after
ASCII lower-casing of the name. -/
def kwMatches (k name : String) : Bool :=
  isSubListOf k.data (name.data.map Char.toLower)

/-- The ordered keyword-to-priority table of keyword_rank. -/
def keywordOrder : List (String × Nat) :=
  [("exterior", 0), ("front", 1), ("aerial", 1), ("living", 2),
   ("fireplace", 3), ("kitchen", 4), ("dining", 5),
   ("bedroom", 6), ("bath", 7), ("deck", 8), ("dock", 9),
   ("lake", 10), ("twilight", 11), ("local", 12)]

/-- keyword_rank: start at 50 and take the minimum over table entries whose
keyword occurs in the lower-cased name. -/
def keyword_rank (name : String) : Nat :=
  keywordOrder.foldl (fun rank kr => if kwMatches kr.1 name then min rank kr.2 else rank) 50

/-- The sort key used by main: (keyword_rank of the whole path, basename). -/
def sortKey (x : String) : Nat × String :=
  (keyword_rank x, basename x)

/-- The keyword rank as the specification words it: the minimum priority among
the table entries whose keyword occurs in the lower-cased name, and 50 when no
keyword matches. -/
def spec_keyword_rank (name : String) : Nat :=
  (((keywordOrder.filter fun kr => kwMatches kr.1 name).map Prod.snd).min?).getD 50

/-- The sort relation induced by the key (keyword_rank x, basename x),
comparing tuples lexicographically as Python does. -/
def rankLe (a b : String) : Bool :=
  decide (keyword_rank a < keyword_rank b) ||
    (keyword_rank a == keyword_rank b && decide (basename a ≤ basename b))

/-- Default ordering of main: stable sort by (keyword_rank, basename). -/
def default_order (srcs : List String) : List String :=
  srcs.mergeSort rankLe

/-- The list comprehension [s for name in names for s in srcs if basename s == name]. -/
def ordered_matches (names srcs : List String) : List String :=
  names.flatMap fun name => srcs.filter fun s => basename s == name

/-- Ordering with an explicit name list: listed matches first in listed order,
then the files not taken, sorted by (keyword_rank, basename). -/
def apply_order (names srcs : List String) : List String :=
  let ordered := ordered_matches names srcs
  let remaining := srcs.filter fun s => !(ordered.contains s)
  ordered ++ remaining.mergeSort rankLe

/-- Does the list of characters end with a dot (Python cap.endswith("."))? -/
def pyEndsWithDot (l : List Char) : Bool :=
  l.getLast? == some '.'

/-- slug_to_caption on the character list of the name. -/
def slugCore (l : List Char) : List Char :=
  let base := splitextRoot (basenameChars l)
  let cap := pyTitle (pyStrip (squashDU base))
  if pyEndsWithDot cap then cap else cap ++ ['.']

/-- slug_to_caption: humanize a filename into a period-terminated caption. -/
def slug_to_caption (name : String) : String :=
  ⟨slugCore name.data⟩

/-- The room/area label of main: like slug_to_caption but without the period. -/
def room_label (base : String) : String :=
  ⟨pyTitle (pyStrip (squashDU (splitextRoot base.data)))⟩

/-- The loop body of load_captions_csv: strip filename and caption and, when
both are non-empty, store the caption under the filename. -/
def capStep (caps : String → Option String) (row : String × String) :
    String → Option String :=
  let fn := pyStripS row.1
  let tx := pyStripS row.2
  if fn ≠ "" ∧ tx ≠ "" then fun k => if k = fn then some tx else caps k else caps

/-- load_captions_csv: fold the CSV rows into a dictionary, keeping only rows
whose stripped filename and stripped caption are both non-empty; later rows
overwrite earlier ones. -/
def load_captions_csv (rows : List (String × String)) : String → Option String :=
  rows.foldl capStep (fun _ => none)

/-- caps.get(base, slug_to_caption(base)) of main. -/
def resolve_caption (caps : String → Option String) (base : String) : String :=
  (caps base).getD (slug_to_caption base)

/-- resize_for_web on image dimensions: pass through when within the maximum
side, else scale so the longer side equals the maximum (floored quotients). -/
def resize_for_web (w h max_side : Nat) : Nat × Nat :=
  if max w h ≤ max_side then (w, h)
  else if h < w then (max_side, h * max_side / w)
  else (w * max_side / h, max_side)

/-- PIL image modes that matter to the pipeline. -/
inductive ImgMode where
  | RGB
  | RGBA
  | other (name : String)
deriving DecidableEq

/-- An image as seen by the shallow embedding: dimensions and mode. -/
structure Img where
  width : Nat
  height : Nat
  mode : ImgMode
deriving DecidableEq

/-- Image.convert: change the mode, keep the dimensions. -/
def convertMode (im : Img) (m : ImgMode) : Img :=
  { im with mode := m }

/-- apply_logo_watermark on the dimension model: scale the logo to a tenth of
the base width, place it with a two-percent margin from the bottom-right
corner, and flatten to RGB.  None models the exceptional paths (zero-width
logo, negative paste coordinates). -/
def apply_logo_watermark (im logo : Img) : Option Img :=
  if logo.width = 0 then none
  else
    let base := convertMode im ImgMode.RGBA
    let lgw := base.width * 10 / 100
    let lgh := logo.height * lgw / logo.width
    let x : Int := (base.width : Int) - (lgw : Int) - ((base.width * 2 / 100 : Nat) : Int)
    let y : Int := (base.height : Int) - (lgh : Int) - ((base.height * 2 / 100 : Nat) : Int)
    if 0 ≤ x ∧ 0 ≤ y then some (convertMode base ImgMode.RGB) else none

/-- The imaging environment of embed_b64: decoding, bounded thumbnailing,
JPEG encoding and base64 encoding, with the fallible steps returning Option. -/
structure ImgEnv where
  decode : String → Option Img
  thumbFit : Img → Nat × Nat → Img
  jpegBytes : Img → Nat → Option (List UInt8)
  b64 : List UInt8 → String

/-- embed_b64: open, thumbnail to (width, width), re-encode as JPEG at
quality 80, base64-encode; any failure yields the empty string. -/
def embed_b64 (env : ImgEnv) (path : String) (width : Nat) : String :=
  match env.decode path with
  | none => ""
  | some im =>
    match env.jpegBytes (env.thumbFit im (width, width)) 80 with
    | none => ""
    | some bytes => env.b64 bytes

/-- One table row of make_html: the image tag is emitted only when the
embedding is non-empty. -/
def make_html_row (env : ImgEnv) (i : Nat) (thumb room caption : String) : String :=
  let data_uri := embed_b64 env thumb 150
  let tag :=
    if data_uri ≠ "" then
      "<img class=\"thumb\" src=\"data:image/jpeg;base64," ++ data_uri ++ "\"/>"
    else ""
  "<tr><td>" ++ toString i ++ "</td><td>" ++ tag ++ "</td><td>" ++ room
    ++ "</td><td>" ++ caption ++ "</td></tr>"

/-- One list entry of make_list_html: same embed-or-empty policy. -/
def make_list_row (env : ImgEnv) (i : Nat) (thumb room caption : String) : String :=
  let data_uri := embed_b64 env thumb 150
  let tag :=
    if data_uri ≠ "" then
      "<img src=\"data:image/jpeg;base64," ++ data_uri
        ++ "\" style=\"width:140px;height:auto;border:1px solid #e5e7eb\"/>"
    else ""
  "<li><div style=\"display:flex;gap:10px;align-items:flex-start\"><div>" ++ tag
    ++ "</div><div><strong>" ++ toString i ++ ". " ++ room ++ "</strong><br>"
    ++ caption ++ "</div></div></li>"

/-- The optional-file and naming arguments of main. -/
structure MainArgs where
  orderFile : Option String
  captionsCsv : Option String
  maxWebWidth : Nat
  propertyName : String

/-- The file-system facts main consults: existence, order-file lines,
caption CSV rows. -/
structure FileSystem where
  pathExists : String → Bool
  readLines : String → List String
  readCsvRows : String → List (String × String)

/-- The order file parse of main: strip each line, keep the non-empty ones. -/
def parse_order_lines (lines : List String) : List String :=
  lines.filterMap fun ln =>
    let t := pyStripS ln
    if t = "" then none else some t

/-- The ordering main settles on: the explicit order file when supplied,
truthy and existing, else the default keyword-ranked sort. -/
def ordered_srcs (args : MainArgs) (fs : FileSystem) (srcs : List String) : List String :=
  match args.orderFile with
  | some p =>
    if (p != "") && fs.pathExists p then
      apply_order (parse_order_lines (fs.readLines p)) srcs
    else default_order srcs
  | none => default_order srcs

/-- The caption dictionary main settles on: loaded from the CSV when supplied,
truthy and existing, else empty. -/
def captions_map (args : MainArgs) (fs : FileSystem) : String → Option String :=
  match args.captionsCsv with
  | some p =>
    if (p != "") && fs.pathExists p then load_captions_csv (fs.readCsvRows p)
    else fun _ => none
  | none => fun _ => none

/-- f-string "%02d" for the 1-based sequence index. -/
def pad2 (i : Nat) : String :=
  if i < 10 then "0" ++ toString i else toString i

/-- str.replace(" ", "_") used for the document file names. -/
def underscored (s : String) : String :=
  ⟨s.data.map fun c => if c = ' ' then '_' else c⟩

/-- The observable outcome of a run of main after image collection: exit
status, fatal message, render rows, and the file names written to each
output set. -/
structure RunOutcome where
  exitCode : Nat
  errorMsg : Option String
  rows : List (Nat × String × String × String)
  fullResNames : List String
  webNames : List String
  thumbNames : List String
  documentNames : List String
deriving DecidableEq

/-- main after collect_images: fail fatally when no images were found,
otherwise order the images, resolve captions, and name every output. -/
def run_main (args : MainArgs) (fs : FileSystem) (srcs : List String) : RunOutcome :=
  if srcs.isEmpty then
    { exitCode := 1, errorMsg := some "No images found in ZIP", rows := [],
      fullResNames := [], webNames := [], thumbNames := [], documentNames := [] }
  else
    let sorted := ordered_srcs args fs srcs
    let caps := captions_map args fs
    let items := List.enumFrom 1 sorted
    let prop := underscored args.propertyName
    { exitCode := 0,
      errorMsg := none,
      rows := items.map fun p =>
        let base := basename p.2
        (p.1, "thumb_" ++ pad2 p.1 ++ ".jpg", room_label base,
          resolve_caption caps base),
      fullResNames := items.map fun p => pad2 p.1 ++ "_" ++ basename p.2,
      webNames := items.map fun p => pad2 p.1 ++ "_" ++ basename p.2,
      thumbNames := items.map fun p => "thumb_" ++ pad2 p.1 ++ ".jpg",
      documentNames :=
        [prop ++ "_Photo_Order_Branded.pdf",
         prop ++ "_Photo_Order_Branded.html",
         prop ++ "_Clean_Captions_List.html"] }

end Landmark

section Smoke

open Landmark

example : slug_to_caption "Living Room." = "Living Room." := by decide

example : slug_to_caption "lake_view-dock.jpg" = "Lake View Dock." := by decide

example : keyword_rank "Kitchen_01.jpg" = 4 := by decide

example : keyword_rank "photo7.jpg" = 50 := by decide

example : keyword_rank "exterior_kitchen.jpg" = 0 := by decide

example : resize_for_web 5000 3000 2560 = (2560, 1536) := by decide

example : pad2 7 ++ "_" ++ basename "a/b/Deck.png" = "07_Deck.png" := by decide

end Smoke

namespace Landmark

theorem mul_div_le_left {a c : Nat} (b : Nat) (hc : 0 < c) (h : a ≤ c) :
    a * b / c ≤ b := by
  calc a * b / c ≤ c * b / c := Nat.div_le_div_right (Nat.mul_le_mul_right b h)
    _ = b := Nat.mul_div_cancel_left b hc

theorem mul_div_le_right {a c : Nat} (b : Nat) (hc : 0 < c) (h : b ≤ c) :
    a * b / c ≤ a := by
  calc a * b / c ≤ a * c / c := Nat.div_le_div_right (Nat.mul_le_mul_left a h)
    _ = a := Nat.mul_div_cancel a hc

theorem resize_pass {w h m : Nat} (hmax : max w h ≤ m) :
    resize_for_web w h m = (w, h) := by
  simp [resize_for_web, hmax]

theorem resize_scale_wide {w h m : Nat} (hmax : ¬ max w h ≤ m) (hwh : h < w) :
    resize_for_web w h m = (m, h * m / w) := by
  simp [resize_for_web, hmax, hwh]

theorem resize_scale_tall {w h m : Nat} (hmax : ¬ max w h ≤ m) (hwh : ¬ h < w) :
    resize_for_web w h m = (w * m / h, m) := by
  simp [resize_for_web, hmax, hwh]

/-- Claim C3: resize_for_web passes through whenever both dimensions are at
most the maximum side, otherwise shrinks so the longer output side equals the
maximum; the 5000x3000 and 2000x1000 cases compute as specified, and no output
dimension ever exceeds the corresponding input dimension. -/
theorem resize_for_web_spec :
    (∀ w h m : Nat,
      (max w h ≤ m → resize_for_web w h m = (w, h)) ∧
      (m < max w h → max (resize_for_web w h m).1 (resize_for_web w h m).2 = m) ∧
      (resize_for_web w h m).1 ≤ w ∧ (resize_for_web w h m).2 ≤ h) ∧
    resize_for_web 5000 3000 2560 = (2560, 1536) ∧
    resize_for_web 2000 1000 2560 = (2000, 1000) := by
  refine ⟨fun w h m => ?_, by decide, by decide⟩
  by_cases hmax : max w h ≤ m
  · rw [resize_pass hmax]
    exact ⟨fun _ => rfl, fun hlt => absurd hmax (Nat.not_le_of_lt hlt),
      Nat.le_refl w, Nat.le_refl h⟩
  · have hlt : m < max w h := Nat.lt_of_not_le hmax
    by_cases hwh : h < w
    · have hw : 0 < w := Nat.lt_of_le_of_lt (Nat.zero_le h) hwh
      have hmw : m < w := by rwa [Nat.max_eq_left (Nat.le_of_lt hwh)] at hlt
      rw [resize_scale_wide hmax hwh]
      exact ⟨fun hc => absurd hc hmax,
        fun _ => Nat.max_eq_left (mul_div_le_left m hw (Nat.le_of_lt hwh)),
        Nat.le_of_lt hmw,
        mul_div_le_right m hw (Nat.le_of_lt hmw)⟩
    · have hwle : w ≤ h := Nat.le_of_not_lt hwh
      have hmh : m < h := by rwa [Nat.max_eq_right hwle] at hlt
      have hh : 0 < h := Nat.lt_of_le_of_lt (Nat.zero_le m) hmh
      rw [resize_scale_tall hmax hwh]
      exact ⟨fun hc => absurd hc hmax,
        fun _ => Nat.max_eq_right (mul_div_le_left m hh hwle),
        mul_div_le_right m hh (Nat.le_of_lt hmh),
        Nat.le_of_lt hmh⟩

/-- Witness for C3: the pass-through branch discharged at a concrete input. -/
theorem resize_for_web_spec_witness :
    max 2000 1000 ≤ 2560 ∧ resize_for_web 2000 1000 2560 = (2000, 1000) :=
  ⟨by decide, (resize_for_web_spec.1 2000 1000 2560).1 (by decide)⟩

/-- Claim C4: whenever apply_logo_watermark succeeds it returns an image with
the base image's width and height, flattened to mode RGB. -/
theorem apply_logo_watermark_dims (im logo out : Img)
    (h : apply_logo_watermark im logo = some out) :
    out.width = im.width ∧ out.height = im.height ∧ out.mode = ImgMode.RGB := by
  by_cases hz : logo.width = 0
  · simp [apply_logo_watermark, hz] at h
  · by_cases hxy : (0 : Int) ≤ (im.width : Int) - (im.width * 10 / 100 : Nat)
        - ((im.width * 2 / 100 : Nat) : Int) ∧
      (0 : Int) ≤ (im.height : Int) - ((logo.height * (im.width * 10 / 100) / logo.width : Nat) : Int)
        - ((im.height * 2 / 100 : Nat) : Int)
    · simp only [apply_logo_watermark, if_neg hz, convertMode, if_pos hxy,
        Option.some.injEq] at h
      subst h
      exact ⟨rfl, rfl, rfl⟩
    · simp only [apply_logo_watermark, if_neg hz, convertMode, if_neg hxy] at h
      exact Option.noConfusion h

/-- Witness for C4: a concrete 1000x800 base with a 200x100 logo succeeds and
keeps the base dimensions. -/
theorem apply_logo_watermark_dims_witness :
    apply_logo_watermark ⟨1000, 800, ImgMode.RGB⟩ ⟨200, 100, ImgMode.RGBA⟩ =
      some ⟨1000, 800, ImgMode.RGB⟩ ∧
    (1000 : Nat) = 1000 ∧ (800 : Nat) = 800 ∧ ImgMode.RGB = ImgMode.RGB :=
  ⟨by decide,
    apply_logo_watermark_dims ⟨1000, 800, ImgMode.RGB⟩ ⟨200, 100, ImgMode.RGBA⟩
      ⟨1000, 800, ImgMode.RGB⟩ (by decide)⟩

/-- Claim C8: with zero collected images, main exits fatally with a non-zero
status and a user-facing message, writing no image sets and no documents. -/
theorem no_images_is_fatal (args : MainArgs) (fs : FileSystem)
    (srcs : List String) (h : srcs = []) :
    (run_main args fs srcs).exitCode ≠ 0 ∧
    (run_main args fs srcs).errorMsg = some "No images found in ZIP" ∧
    (run_main args fs srcs).rows = [] ∧
    (run_main args fs srcs).fullResNames = [] ∧
    (run_main args fs srcs).webNames = [] ∧
    (run_main args fs srcs).thumbNames = [] ∧
    (run_main args fs srcs).documentNames = [] := by
  subst h
  simp [run_main]

/-- Witness for C8: the empty image list at concrete arguments. -/
theorem no_images_is_fatal_witness :
    (run_main ⟨none, none, 2560, "The Landmark"⟩
      ⟨fun _ => false, fun _ => [], fun _ => []⟩ []).exitCode ≠ 0 ∧
    (run_main ⟨none, none, 2560, "The Landmark"⟩
      ⟨fun _ => false, fun _ => [], fun _ => []⟩ []).errorMsg =
      some "No images found in ZIP" :=
  ⟨(no_images_is_fatal _ _ _ rfl).1, (no_images_is_fatal _ _ _ rfl).2.1⟩

/-- Claim C10: when the order file or the captions CSV names a path that does
not exist, the run proceeds exactly as if the option had not been supplied. -/
theorem missing_optional_files_ignored (args : MainArgs) (fs : FileSystem)
    (srcs : List String) (p q : String)
    (hp : fs.pathExists p = false) (hq : fs.pathExists q = false) :
    run_main { args with orderFile := some p, captionsCsv := some q } fs srcs =
      run_main { args with orderFile := none, captionsCsv := none } fs srcs := by
  simp [run_main, ordered_srcs, captions_map, hp, hq]

/-- Witness for C10: concrete arguments with an always-false existence test. -/
theorem missing_optional_files_ignored_witness :
    (⟨fun _ => false, fun _ => [], fun _ => []⟩ : FileSystem).pathExists "o.txt" = false ∧
    run_main ⟨some "o.txt", some "c.csv", 2560, "P"⟩
        ⟨fun _ => false, fun _ => [], fun _ => []⟩ ["a.jpg"] =
      run_main ⟨none, none, 2560, "P"⟩
        ⟨fun _ => false, fun _ => [], fun _ => []⟩ ["a.jpg"] :=
  ⟨rfl, missing_optional_files_ignored ⟨some "x", some "y", 2560, "P"⟩
    ⟨fun _ => false, fun _ => [], fun _ => []⟩ ["a.jpg"] "o.txt" "c.csv" rfl rfl⟩

/-- Claim C9: embed_b64 totally computes either the base64 JPEG of the
downsized image or the empty string on any failure, and an empty embedding
makes both HTML renderers emit an empty thumbnail cell with no image tag. -/
theorem embed_b64_best_effort (env : ImgEnv) (path : String) (width : Nat) :
    (env.decode path = none → embed_b64 env path width = "") ∧
    (∀ im, env.decode path = some im →
      env.jpegBytes (env.thumbFit im (width, width)) 80 = none →
      embed_b64 env path width = "") ∧
    (∀ im bytes, env.decode path = some im →
      env.jpegBytes (env.thumbFit im (width, width)) 80 = some bytes →
      embed_b64 env path width = env.b64 bytes) ∧
    (∀ i thumb room caption, embed_b64 env thumb 150 = "" →
      make_html_row env i thumb room caption =
        "<tr><td>" ++ toString i ++ "</td><td>" ++ "" ++ "</td><td>" ++ room
          ++ "</td><td>" ++ caption ++ "</td></tr>") ∧
    (∀ i thumb room caption, embed_b64 env thumb 150 = "" →
      make_list_row env i thumb room caption =
        "<li><div style=\"display:flex;gap:10px;align-items:flex-start\"><div>" ++ ""
          ++ "</div><div><strong>" ++ toString i ++ ". " ++ room ++ "</strong><br>"
          ++ caption ++ "</div></div></li>") := by
  refine ⟨fun hd => ?_, fun im hd hj => ?_, fun im bytes hd hj => ?_,
    fun i thumb room caption he => ?_, fun i thumb room caption he => ?_⟩
  · simp [embed_b64, hd]
  · simp [embed_b64, hd, hj]
  · simp [embed_b64, hd, hj]
  · simp [make_html_row, he]
  · simp [make_list_row, he]

/-- Witness for C9: a decoder that fails yields the empty string and an empty
thumbnail cell. -/
theorem embed_b64_best_effort_witness :
    embed_b64 ⟨fun _ => none, fun im _ => im, fun _ _ => none, fun _ => ""⟩ "t.jpg" 150 = "" ∧
    make_html_row ⟨fun _ => none, fun im _ => im, fun _ _ => none, fun _ => ""⟩
        1 "t.jpg" "Kitchen" "Kitchen." =
      "<tr><td>1</td><td></td><td>Kitchen</td><td>Kitchen.</td></tr>" := by
  constructor
  · exact (embed_b64_best_effort ⟨fun _ => none, fun im _ => im, fun _ _ => none,
      fun _ => ""⟩ "t.jpg" 150).1 rfl
  · have h := (embed_b64_best_effort ⟨fun _ => none, fun im _ => im, fun _ _ => none,
      fun _ => ""⟩ "t.jpg" 150).2.2.2.1 1 "t.jpg" "Kitchen" "Kitchen." rfl
    simpa using h

theorem foldl_min_filter (p : String × Nat → Bool) (l : List (String × Nat)) :
    ∀ acc : Nat,
      l.foldl (fun rank kr => if p kr then min rank kr.2 else rank) acc
        = ((l.filter p).map Prod.snd).foldl min acc := by
  induction l with
  | nil => intro acc; rfl
  | cons kr t ih =>
    intro acc
    by_cases hp : p kr = true
    · simp [List.filter_cons, hp, ih]
    · simp [List.filter_cons, hp, ih]

theorem keyword_rank_eq_foldl (x : String) :
    keyword_rank x
      = ((keywordOrder.filter fun kr => kwMatches kr.1 x).map Prod.snd).foldl min 50 :=
  foldl_min_filter _ keywordOrder 50

theorem foldl_min_eq_getD (l : List Nat) (h : ∀ a ∈ l, a ≤ 50) :
    l.foldl min 50 = l.min?.getD 50 := by
  cases l with
  | nil => rfl
  | cons a t =>
    have ha : a ≤ 50 := h a (List.mem_cons_self a t)
    show t.foldl min (min 50 a) = ((a :: t).min?).getD 50
    rw [List.min?_cons', Option.getD_some, Nat.min_eq_right ha]

theorem keywordOrder_ranks_le : ∀ kr ∈ keywordOrder, kr.2 ≤ 50 := by decide

/-- Claim C2: for every discovered path, the sort key of the default ordering
is the pair of the keyword rank and the base filename, where the keyword rank
is the minimum priority among the matching entries of the fixed table after
lower-casing, and 50 when no keyword matches. -/
theorem sortKey_matches_spec (x : String) :
    sortKey x = (spec_keyword_rank x, basename x) := by
  have hle : ∀ a ∈ (keywordOrder.filter fun kr => kwMatches kr.1 x).map Prod.snd,
      a ≤ 50 := by
    intro a ha
    rcases List.mem_map.mp ha with ⟨kr, hkr, rfl⟩
    exact keywordOrder_ranks_le kr (List.mem_of_mem_filter hkr)
  unfold sortKey spec_keyword_rank
  rw [keyword_rank_eq_foldl, foldl_min_eq_getD _ hle]

theorem capStep_nonempty {d : String → Option String} {row : String × String}
    {k v : String} (hd : ∀ k v, d k = some v → v ≠ "")
    (h : capStep d row k = some v) : v ≠ "" := by
  by_cases hc : pyStripS row.1 ≠ "" ∧ pyStripS row.2 ≠ ""
  · simp only [capStep, if_pos hc] at h
    by_cases hk : k = pyStripS row.1
    · rw [if_pos hk] at h
      have : pyStripS row.2 = v := Option.some.inj h
      exact this ▸ hc.2
    · rw [if_neg hk] at h
      exact hd k v h
  · simp only [capStep, if_neg hc] at h
    exact hd k v h

theorem foldl_capStep_nonempty (rows : List (String × String)) :
    ∀ (d : String → Option String), (∀ k v, d k = some v → v ≠ "") →
      ∀ k v, (rows.foldl capStep d) k = some v → v ≠ "" := by
  induction rows with
  | nil => exact fun d hd => hd
  | cons row t ih =>
    intro d hd
    simp only [List.foldl_cons]
    exact ih _ (fun k v => capStep_nonempty hd)

theorem slugCore_ne_nil (l : List Char) : slugCore l ≠ [] := by
  simp only [slugCore]
  by_cases hd : pyEndsWithDot (pyTitle (pyStrip (squashDU (splitextRoot (basenameChars l)))))
  · rw [if_pos hd]
    intro hnil
    rw [pyEndsWithDot, hnil] at hd
    simp at hd
  · rw [if_neg hd]
    intro hnil
    simp at hnil

theorem slug_nonempty (base : String) : slug_to_caption base ≠ "" := by
  intro h
  exact slugCore_ne_nil base.data (congrArg String.data h)

/-- Claim C5: caption resolution returns the table entry when the filename is
present (such entries are never empty), otherwise the caption derived by
slug_to_caption, and the result is always a non-empty string. -/
theorem caption_resolution_spec (rows : List (String × String)) (base : String) :
    (∀ tx, load_captions_csv rows base = some tx →
      resolve_caption (load_captions_csv rows) base = tx) ∧
    (load_captions_csv rows base = none →
      resolve_caption (load_captions_csv rows) base = slug_to_caption base) ∧
    resolve_caption (load_captions_csv rows) base ≠ "" := by
  refine ⟨fun tx htx => ?_, fun hn => ?_, ?_⟩
  · simp [resolve_caption, htx]
  · simp [resolve_caption, hn]
  · cases hc : load_captions_csv rows base with
    | none =>
      simp only [resolve_caption, hc, Option.getD_none]
      exact slug_nonempty base
    | some tx =>
      simp only [resolve_caption, hc, Option.getD_some]
      exact foldl_capStep_nonempty rows _ (fun k v h => Option.noConfusion h) base tx hc

/-- Witness for C5: a one-row table resolves to its stripped caption; an
absent key falls back to the derived caption. -/
theorem caption_resolution_spec_witness :
    load_captions_csv [(" a.jpg ", " Nice view. ")] "a.jpg" = some "Nice view." ∧
    resolve_caption (load_captions_csv [(" a.jpg ", " Nice view. ")]) "a.jpg" =
      "Nice view." ∧
    resolve_caption (load_captions_csv [(" a.jpg ", " Nice view. ")]) "b.jpg" ≠ "" := by
  refine ⟨by decide, ?_, ?_⟩
  · exact (caption_resolution_spec [(" a.jpg ", " Nice view. ")] "a.jpg").1
      "Nice view." (by decide)
  · exact (caption_resolution_spec [(" a.jpg ", " Nice view. ")] "b.jpg").2.2

theorem takeWhile_all {p : Char → Bool} :
    ∀ l : List Char, (∀ a ∈ l, p a = true) → l.takeWhile p = l := by
  intro l h
  induction l with
  | nil => rfl
  | cons a t ih =>
    rw [List.takeWhile_cons_of_pos (h a (List.mem_cons_self a t))]
    rw [ih fun a ha => h a (List.mem_cons_of_mem _ ha)]

theorem basenameChars_of_no_slash {l : List Char} (h : '/' ∉ l) :
    basenameChars l = l := by
  unfold basenameChars
  rw [takeWhile_all l.reverse, List.reverse_reverse]
  intro a ha
  simp only [decide_eq_true_eq]
  intro heq
  exact h (heq ▸ List.mem_reverse.mp ha)

theorem squashAux_of_clean :
    ∀ l : List Char, (∀ a ∈ l, isDU a = false) → ∀ b, squashAux l b = l := by
  intro l h
  induction l with
  | nil => intro b; rfl
  | cons a t ih =>
    intro b
    have ha : isDU a = false := h a (List.mem_cons_self a t)
    simp only [squashAux, ha, Bool.false_eq_true, if_false, List.cons.injEq, true_and]
    exact ih (fun a ha => h a (List.mem_cons_of_mem _ ha)) false

theorem splitextRoot_append_dot {l : List Char}
    (hne : l ≠ []) (hlast : l.getLast? ≠ some '.') :
    splitextRoot (l ++ ['.']) = l := by
  unfold splitextRoot
  have hrev : (l ++ ['.']).reverse = '.' :: l.reverse := by
    simp
  rw [hrev, List.dropWhile_cons_of_neg (by simp)]
  have hany : l.reverse.any (fun c => c ≠ '.') = true := by
    rcases List.getLast?_eq_some_iff.mp
      (Option.ne_none_iff_exists'.mp (by
        intro hcon
        exact hne (by simpa using List.getLast?_eq_none_iff.mp hcon))).choose_spec
      with ⟨l', hl'⟩
    refine List.any_eq_true.mpr ⟨l.getLast (by exact hne), ?_, ?_⟩
    · exact List.mem_reverse.mpr (List.getLast_mem hne)
    · simp only [decide_eq_true_eq]
      intro heq
      exact hlast (by rw [List.getLast?_eq_getLast l hne, heq])
  change (if (l.reverse.any fun c => decide (c ≠ '.')) = true
    then l.reverse.reverse else l ++ ['.']) = l
  rw [if_pos hany, List.reverse_reverse]

/-- Claim C6: slug_to_caption fixes every already-capitalized,
period-terminated caption: if the text before the final period is non-empty,
slash/underscore/hyphen-free, does not itself end in a period, and is fixed by
stripping and by title-casing, the caption comes back unchanged. -/
theorem slug_fixed_point (c : String)
    (hslash : '/' ∉ c.data) (hund : '_' ∉ c.data) (hdash : '-' ∉ c.data)
    (hne : c ≠ "") (hdot : c.data.getLast? ≠ some '.')
    (hstrip : pyStrip c.data = c.data) (htitle : pyTitle c.data = c.data) :
    slug_to_caption (c ++ ".") = c ++ "." := by
  have hdata : (c ++ ".").data = c.data ++ ['.'] := by
    simp [String.data_append]
  have hnodata : c.data ≠ [] := by
    intro hcon
    exact hne (by cases c; simp_all)
  apply String.ext
  rw [hdata]
  show slugCore (c.data ++ ['.']) = c.data ++ ['.']
  have hbase : basenameChars (c.data ++ ['.']) = c.data ++ ['.'] := by
    apply basenameChars_of_no_slash
    intro hmem
    rcases List.mem_append.mp hmem with h | h
    · exact hslash h
    · simp at h
  have hroot : splitextRoot (c.data ++ ['.']) = c.data :=
    splitextRoot_append_dot hnodata hdot
  have hsquash : squashDU c.data = c.data := by
    apply squashAux_of_clean
    intro a ha
    have h1 : a ≠ '_' := fun heq => hund (heq ▸ ha)
    have h2 : a ≠ '-' := fun heq => hdash (heq ▸ ha)
    simp [isDU, h1, h2]
  have hcapdot : pyEndsWithDot c.data = false := by
    simp only [pyEndsWithDot, beq_eq_false_iff_ne, ne_eq]
    exact hdot
  simp only [slugCore, hbase, hroot, hsquash, hstrip, htitle, hcapdot,
    Bool.false_eq_true, if_false]

/-- Witness for C6: the caption of the specification, Living Room. -/
theorem slug_fixed_point_witness :
    slug_to_caption "Living Room." = "Living Room." :=
  slug_fixed_point "Living Room" (by decide) (by decide) (by decide)
    (by decide) (by decide) (by decide) (by decide)

theorem mem_ordered_matches {names srcs : List String} {s : String} :
    s ∈ ordered_matches names srcs ↔ s ∈ srcs ∧ basename s ∈ names := by
  simp only [ordered_matches, List.mem_flatMap, List.mem_filter, beq_iff_eq]
  constructor
  · rintro ⟨n, hn, hs, heq⟩
    exact ⟨hs, heq ▸ hn⟩
  · rintro ⟨hs, hbn⟩
    exact ⟨basename s, hbn, hs, rfl⟩

theorem contains_eq_false_of_not_mem {l : List String} {a : String} (h : a ∉ l) :
    l.contains a = false := by
  simp only [List.contains, List.elem_eq_mem, decide_eq_false_iff_not]
  exact h

theorem filter_basename_cons_perm {n : String} {ns : List String} (hn : n ∉ ns) :
    ∀ l : List String,
      ((l.filter fun s => basename s == n)
          ++ l.filter fun s => ns.contains (basename s)).Perm
        (l.filter fun s => (n :: ns).contains (basename s)) := by
  intro l
  induction l with
  | nil => simp
  | cons x t ih =>
    by_cases hx : basename x = n
    · have hx1 : (basename x == n) = true := beq_iff_eq.mpr hx
      have hnm : basename x ∉ ns := hx ▸ hn
      have hx3 : (n :: ns).contains (basename x) = true := by
        rw [List.contains_cons, hx1, Bool.true_or]
      rw [@List.filter_cons_of_pos String (fun s => basename s == n) x t hx1,
        @List.filter_cons_of_neg String (fun s => ns.contains (basename s)) x t
          (by simpa using hnm),
        @List.filter_cons_of_pos String (fun s => (n :: ns).contains (basename s)) x t hx3,
        List.cons_append]
      exact ih.cons x
    · by_cases hx2 : ns.contains (basename x) = true
      · have hx3 : (n :: ns).contains (basename x) = true := by
          rw [List.contains_cons, hx2, Bool.or_true]
        rw [@List.filter_cons_of_neg String (fun s => basename s == n) x t
            (by simpa using hx),
          @List.filter_cons_of_pos String (fun s => ns.contains (basename s)) x t hx2,
          @List.filter_cons_of_pos String (fun s => (n :: ns).contains (basename s)) x t hx3]
        exact List.perm_middle.trans (ih.cons x)
      · have hnm : basename x ∉ ns := fun hm =>
          hx2 (by simp [List.contains, List.elem_eq_mem, hm])
        rw [@List.filter_cons_of_neg String (fun s => basename s == n) x t
            (by simpa using hx),
          @List.filter_cons_of_neg String (fun s => ns.contains (basename s)) x t
            (by simpa using hnm),
          @List.filter_cons_of_neg String (fun s => (n :: ns).contains (basename s)) x t
            (by simp [not_or]; exact ⟨hx, hnm⟩)]
        exact ih

theorem ordered_matches_perm (srcs : List String) :
    ∀ {names : List String}, names.Nodup →
      (ordered_matches names srcs).Perm
        (srcs.filter fun s => names.contains (basename s)) := by
  intro names
  induction names with
  | nil =>
    intro _
    simp [ordered_matches]
  | cons n ns ih =>
    intro h
    rcases List.nodup_cons.mp h with ⟨hn, hns⟩
    show ((srcs.filter fun s => basename s == n) ++ ordered_matches ns srcs).Perm _
    exact ((ih hns).append_left _).trans (filter_basename_cons_perm hn srcs)

theorem remaining_filter_eq (names srcs : List String) :
    (srcs.filter fun s => !((ordered_matches names srcs).contains s))
      = srcs.filter fun s => !(names.contains (basename s)) := by
  apply List.filter_congr
  intro x hx
  by_cases hbn : basename x ∈ names
  · have h1 : (ordered_matches names srcs).contains x = true := by
      simp only [List.contains, List.elem_eq_mem, decide_eq_true_eq]
      exact mem_ordered_matches.mpr ⟨hx, hbn⟩
    have h2 : names.contains (basename x) = true := by
      simp only [List.contains, List.elem_eq_mem, decide_eq_true_eq]
      exact hbn
    rw [h1, h2]
  · have h1 : (ordered_matches names srcs).contains x = false := by
      simp only [List.contains, List.elem_eq_mem, decide_eq_false_iff_not]
      exact fun hc => hbn (mem_ordered_matches.mp hc).2
    have h2 : names.contains (basename x) = false :=
      contains_eq_false_of_not_mem hbn
    rw [h1, h2]

/-- Claim C1 amended: when the explicit order list has no repeated name, the
final order is the listed matches in listed order followed by the remaining
files sorted by (keyword rank, filename), and it is a permutation of the
discovered set; in particular it has no duplicates when the discovered set
has none.  (The unamended claim fails for order lists with repeated names,
see the counterexample.) -/
theorem apply_order_perm (names srcs : List String) (h : names.Nodup) :
    (apply_order names srcs).Perm srcs ∧
    (srcs.Nodup → (apply_order names srcs).Nodup) := by
  have hperm : (apply_order names srcs).Perm srcs := by
    show (ordered_matches names srcs
      ++ (srcs.filter fun s => !((ordered_matches names srcs).contains s)).mergeSort
          rankLe).Perm srcs
    have step1 : (ordered_matches names srcs
        ++ (srcs.filter fun s => !((ordered_matches names srcs).contains s)).mergeSort
            rankLe).Perm
        (ordered_matches names srcs
          ++ srcs.filter fun s => !((ordered_matches names srcs).contains s)) :=
      (List.mergeSort_perm _ _).append_left _
    have step2 : (ordered_matches names srcs
        ++ srcs.filter fun s => !((ordered_matches names srcs).contains s)).Perm
        ((srcs.filter fun s => names.contains (basename s))
          ++ srcs.filter fun s => !(names.contains (basename s))) := by
      rw [remaining_filter_eq]
      exact (ordered_matches_perm srcs h).append_right _
    exact (step1.trans step2).trans
      (List.filter_append_perm (fun s => names.contains (basename s)) srcs)
  exact ⟨hperm, fun hnd => hperm.nodup_iff.mpr hnd⟩

/-- Witness for C1: a concrete order list without repeats. -/
theorem apply_order_perm_witness :
    (["b.jpg"] : List String).Nodup ∧
    (apply_order ["b.jpg"] ["a.jpg", "b.jpg"]).Perm ["a.jpg", "b.jpg"] :=
  ⟨by decide, (apply_order_perm ["b.jpg"] ["a.jpg", "b.jpg"] (by decide)).1⟩

-- Counterexample to C1 as stated: an order list that repeats a name makes
-- the output list a duplicate-bearing non-permutation of the discovered set.
unseal String.ltb List.merge List.mergeSort in
theorem apply_order_dup_counterexample :
    apply_order ["a.jpg", "a.jpg"] ["a.jpg"] = ["a.jpg", "a.jpg"] ∧
    ¬ (apply_order ["a.jpg", "a.jpg"] ["a.jpg"]).Perm ["a.jpg"] ∧
    ¬ (apply_order ["a.jpg", "a.jpg"] ["a.jpg"]).Nodup := by
  have he : apply_order ["a.jpg", "a.jpg"] ["a.jpg"] = ["a.jpg", "a.jpg"] := by
    decide
  refine ⟨he, ?_, ?_⟩
  · intro hp
    rw [he] at hp
    exact absurd hp.length_eq (by decide)
  · rw [he]
    decide

theorem foldl_min_le_init : ∀ (t : List Nat) (acc : Nat), t.foldl min acc ≤ acc := by
  intro t
  induction t with
  | nil => intro acc; exact Nat.le_refl acc
  | cons x t ih =>
    intro acc
    exact Nat.le_trans (ih (min acc x)) (Nat.min_le_left acc x)

theorem foldl_min_le_mem {l : List Nat} {a : Nat} (ha : a ∈ l) :
    ∀ acc : Nat, l.foldl min acc ≤ a := by
  induction l with
  | nil => cases ha
  | cons x t ih =>
    intro acc
    rcases List.mem_cons.mp ha with rfl | hmem
    · exact Nat.le_trans (foldl_min_le_init t (min acc a)) (Nat.min_le_right acc a)
    · exact ih hmem (min acc x)

theorem foldl_min_pos {l : List Nat} (h : ∀ a ∈ l, 1 ≤ a) :
    ∀ acc : Nat, 1 ≤ acc → 1 ≤ l.foldl min acc := by
  induction l with
  | nil => exact fun acc h1 => h1
  | cons x t ih =>
    intro acc h1
    exact ih (fun a ha => h a (List.mem_cons_of_mem _ ha)) (min acc x)
      (le_min h1 (h x (List.mem_cons_self x t)))

theorem keyword_rank_of_exterior {x : String} (h : kwMatches "exterior" x = true) :
    keyword_rank x = 0 := by
  apply Nat.le_zero.mp
  rw [keyword_rank_eq_foldl]
  apply foldl_min_le_mem
  exact List.mem_map.mpr ⟨("exterior", 0),
    List.mem_filter.mpr ⟨by decide, h⟩, rfl⟩

theorem keywordOrder_zero_is_exterior :
    ∀ kr ∈ keywordOrder, kr.2 = 0 → kr.1 = "exterior" := by decide

theorem keyword_rank_pos_of_no_exterior {x : String}
    (h : kwMatches "exterior" x = false) : 1 ≤ keyword_rank x := by
  rw [keyword_rank_eq_foldl]
  apply foldl_min_pos _ 50 (by decide)
  intro a ha
  rcases List.mem_map.mp ha with ⟨kr, hkr, rfl⟩
  rcases List.mem_filter.mp hkr with ⟨hmem, hmatch⟩
  by_contra hlt
  have h0 : kr.2 = 0 := Nat.lt_one_iff.mp (Nat.lt_of_not_le hlt)
  rw [keywordOrder_zero_is_exterior kr hmem h0] at hmatch
  rw [h] at hmatch
  exact Bool.noConfusion hmatch

theorem rankLe_eq_false_of_rank_lt {a b : String}
    (h : keyword_rank b < keyword_rank a) : rankLe a b = false := by
  have h1 : decide (keyword_rank a < keyword_rank b) = false :=
    decide_eq_false (Nat.not_lt.mpr (Nat.le_of_lt h))
  have h2 : (keyword_rank a == keyword_rank b) = false :=
    beq_eq_false_iff_ne.mpr (Nat.ne_of_gt h)
  simp [rankLe, h1, h2]

theorem rankLe_trans : ∀ (a b c : String),
    rankLe a b = true → rankLe b c = true → rankLe a c = true := by
  intro a b c hab hbc
  simp only [rankLe, Bool.or_eq_true, Bool.and_eq_true, decide_eq_true_eq,
    beq_iff_eq] at hab hbc ⊢
  rcases hab with h1 | ⟨h1, h2⟩ <;> rcases hbc with h3 | ⟨h3, h4⟩
  · exact Or.inl (Nat.lt_trans h1 h3)
  · exact Or.inl (h3 ▸ h1)
  · exact Or.inl (h1 ▸ h3)
  · exact Or.inr ⟨h1.trans h3, le_trans h2 h4⟩

theorem rankLe_total : ∀ a b : String, (rankLe a b || rankLe b a) = true := by
  intro a b
  simp only [rankLe, Bool.or_eq_true, Bool.and_eq_true, decide_eq_true_eq,
    beq_iff_eq]
  rcases Nat.lt_trichotomy (keyword_rank a) (keyword_rank b) with h | h | h
  · exact Or.inl (Or.inl h)
  · rcases le_total (basename a) (basename b) with hle | hle
    · exact Or.inl (Or.inr ⟨h, hle⟩)
    · exact Or.inr (Or.inr ⟨h.symm, hle⟩)
  · exact Or.inr (Or.inl h)

theorem default_order_sorted (srcs : List String) :
    (default_order srcs).Pairwise (fun a b => rankLe a b = true) := by
  have h := List.sorted_mergeSort
    (fun a b c => rankLe_trans a b c)
    (fun a b => rankLe_total a b) srcs
  exact h

/-- Claim C7 amended: in the default ordering, a file whose lower-cased name
contains kitchen but not exterior always appears strictly after every file
whose lower-cased name contains exterior.  (A file containing both keywords
can sort before another exterior file, see the counterexample.) -/
theorem kitchen_not_before_exterior (srcs : List String) (a b : String)
    (ha : kwMatches "kitchen" a = true)
    (hb : kwMatches "exterior" b = true)
    (hax : kwMatches "exterior" a = false)
    (i j : Fin (default_order srcs).length)
    (hia : (default_order srcs).get i = a)
    (hjb : (default_order srcs).get j = b) :
    (j : Nat) < (i : Nat) := by
  have hrb : keyword_rank b = 0 := keyword_rank_of_exterior hb
  have hra : 1 ≤ keyword_rank a := keyword_rank_pos_of_no_exterior hax
  rcases Nat.lt_trichotomy (i : Nat) (j : Nat) with hij | hij | hij
  · exfalso
    have hpair := List.pairwise_iff_get.mp (default_order_sorted srcs) i j hij
    rw [hia, hjb, rankLe_eq_false_of_rank_lt (by omega)] at hpair
    exact Bool.noConfusion hpair
  · exfalso
    have hab : a = b := by
      rw [← hia, Fin.ext hij]
      exact hjb
    rw [hab, hb] at hax
    exact Bool.noConfusion hax
  · exact hij

-- Witness for C7: a kitchen file and an exterior file in a concrete set.
unseal String.ltb List.merge List.mergeSort in
theorem kitchen_not_before_exterior_witness :
    kwMatches "kitchen" "kitchen_1.jpg" = true ∧ (0 : Nat) < 1 :=
  ⟨by decide,
    kitchen_not_before_exterior ["kitchen_1.jpg", "exterior_1.jpg"]
      "kitchen_1.jpg" "exterior_1.jpg" (by decide) (by decide) (by decide)
      ⟨1, by decide⟩ ⟨0, by decide⟩ (by decide) (by decide)⟩

-- Counterexample to C7 as stated: a file containing both kitchen and
-- exterior sorts before a file containing only exterior.
unseal String.ltb List.merge List.mergeSort in
theorem kitchen_before_exterior_counterexample :
    kwMatches "kitchen" "exterior_kitchen_a.jpg" = true ∧
    kwMatches "exterior" "exterior_z.jpg" = true ∧
    default_order ["exterior_z.jpg", "exterior_kitchen_a.jpg"] =
      ["exterior_kitchen_a.jpg", "exterior_z.jpg"] :=
  ⟨by decide, by decide, by decide⟩

end Landmark
